import Mathlib

/-!
A verification development for a bit-packed implementation of Conway's
Game of Life (62 cells per 64-bit word, scratch halo bits 0 and 63,
column-major storage).  The definitions below are a shallow embedding of
the Rust source (`GameOfLife` in `src/main.rs`); machine words are
modelled as `Nat`, reduced modulo `2 ^ 64` exactly where the source
relies on 64-bit truncation.
-/

namespace GoL

/-- Number of cells packed in one storage word (`CLUSTER_LEN` in the source). -/
def CLUSTER_LEN : Nat := 62

/-- 64-bit truncating left shift (`<<` on `u64`). -/
def shl64 (x n : Nat) : Nat := (x <<< n) % 2 ^ 64

/-- 64-bit bitwise complement (`!x` on `u64`). -/
def not64 (x : Nat) : Nat := x ^^^ (2 ^ 64 - 1)

/-- Embeds `edge_mask` from `GameOfLife::tick`: bits 0 and 63. -/
def edge_mask : Nat := 0x8000000000000001

/-- The `tail_mask` computed in `GameOfLife::tick` from the grid width:
`tail_width = (width + CLUSTER_LEN - 1) % CLUSTER_LEN + 1` and
`tail_mask = edge_mask | (!1u64 << tail_width)`. -/
def tail_mask_of (width : Nat) : Nat :=
  edge_mask ||| shl64 (not64 1) ((width + CLUSTER_LEN - 1) % CLUSTER_LEN + 1)

/-- Embeds `tick_cluster` from the source: advance the 62 lanes of `cluster` by one
generation given the words above and below, whose bits 0 and 63 (like
`cluster`'s) hold the boundary cells of the adjacent columns.  The two
`bit_sum` full-adder calls of the source are inlined. -/
def tick_cluster (cluster above below : Nat) : Nat :=
  let ix := above ^^^ cluster ^^^ below
  let iy := above &&& cluster ||| above &&& below ||| cluster &&& below
  let ax := shl64 ix 1 ^^^ (above ^^^ below) ^^^ ix >>> 1
  let ay := shl64 ix 1 &&& (above ^^^ below) ||| shl64 ix 1 &&& ix >>> 1 |||
      (above ^^^ below) &&& ix >>> 1
  let bx := shl64 iy 1 ^^^ (above &&& below) ^^^ iy >>> 1
  let bw := shl64 iy 1 &&& (above &&& below) ||| shl64 iy 1 &&& iy >>> 1 |||
      (above &&& below) &&& iy >>> 1
  (cluster ||| ax) &&& ((ay ^^^ bx) &&& not64 bw)

/-- The loop of `tick_column`: `above` carries the pre-update value of the
previous word (`0` on entry); the final word is processed with `below = 0`. -/
def tickColumnGo (above : Nat) : List Nat → List Nat
  | [] => []
  | [c] => [tick_cluster c above 0]
  | c :: b :: rest => tick_cluster c above b :: tickColumnGo c (b :: rest)

/-- Embeds `tick_column` from the source. -/
def tick_column (column : List Nat) : List Nat := tickColumnGo 0 column

/-- The first exchange loop of `tick`:
`*first ^= ((second << CLUSTER_LEN) ^ *first) & edge_mask`. -/
def exchFirst (first second : Nat) : Nat :=
  first ^^^ ((shl64 second CLUSTER_LEN ^^^ first) &&& edge_mask)

/-- The middle exchange loop of `tick`:
`*mid ^= (((left >> CLUSTER_LEN) | (right << CLUSTER_LEN)) ^ *mid) & edge_mask`. -/
def exchMid (left mid right : Nat) : Nat :=
  mid ^^^ (((left >>> CLUSTER_LEN ||| shl64 right CLUSTER_LEN) ^^^ mid) &&& edge_mask)

/-- The tail exchange loop of `tick`:
`*last ^= ((left >> CLUSTER_LEN) ^ *last) & tail_mask`. -/
def exchLast (tm left last : Nat) : Nat :=
  last ^^^ ((left >>> CLUSTER_LEN ^^^ last) &&& tm)

/-- The `prev.iter().zip(curr.iter_mut()).zip(next.iter())` rowwise zip. -/
def zipWith3 (f : Nat → Nat → Nat → Nat) : List Nat → List Nat → List Nat → List Nat
  | a :: as, b :: bs, c :: cs => f a b c :: zipWith3 f as bs cs
  | _, _, _ => []

/-- The sliding-window column loop of `tick` (`prev`, `curr`, iterator of the
remaining columns), returning the updated columns in storage order.  When the
iterator is exhausted the tail mask is applied to the final column and both
remaining columns are advanced. -/
def tickLoop (tm : Nat) (prev curr : List Nat) : List (List Nat) → List (List Nat)
  | next :: rest =>
    tick_column prev :: tickLoop tm (zipWith3 exchMid prev curr next) next rest
  | [] =>
    [tick_column prev, tick_column (List.zipWith (exchLast tm) prev curr)]

/-- The column sweep of `tick` over the list of column slices: a single column
is masked with `!tail_mask` and advanced in place; otherwise the first column
exchanges with the second and the sliding-window loop runs. -/
def tickCols (tm : Nat) : List (List Nat) → List (List Nat)
  | [] => []
  | [c0] => [tick_column (c0.map fun u => u &&& not64 tm)]
  | c0 :: c1 :: rest => tickLoop tm (List.zipWith exchFirst c0 c1) c1 rest

/-- Embeds `chunks_exact_mut height` on the storage: `columns` column slices of
`height` words each (the first argument is the number of full chunks,
`length / height` for `chunks_exact_mut`). -/
def chunkCols : Nat → Nat → List Nat → List (List Nat)
  | 0, _, _ => []
  | c + 1, h, l => l.take h :: chunkCols c h (l.drop h)

/-- The `GameOfLife` struct: dimensions plus the packed storage
(column-major, `ceil(width / 62) * height` words). -/
structure GameOfLife where
  width : Nat
  height : Nat
  grid : List Nat

/-- Embeds `GameOfLife::new`. -/
def GameOfLife.new (width height : Nat) : GameOfLife :=
  { width := width, height := height
    grid := List.replicate ((width + CLUSTER_LEN - 1) / CLUSTER_LEN * height) 0 }

/-- Embeds `GameOfLife::tick` as a pure storage transformation (see `tickChecked`
for the panic model).  `chunks_exact_mut` yields `length / height` full
chunks and leaves any remainder untouched. -/
def GameOfLife.tick (g : GameOfLife) : GameOfLife :=
  let cols := g.grid.length / g.height
  { g with grid :=
      (tickCols (tail_mask_of g.width) (chunkCols cols g.height g.grid)).flatten
        ++ g.grid.drop (cols * g.height) }

/-- Embeds `GameOfLife::tick` with its two potential panic sources made explicit:
`chunks_exact_mut` panics when the chunk size (`height`) is `0`, and the
`unwrap` on the first chunk panics when the storage holds no full column. -/
def GameOfLife.tickChecked (g : GameOfLife) : Option GameOfLife :=
  if g.height = 0 then none
  else if g.grid.length < g.height then none
  else some g.tick

/-- Embeds `GameOfLife::is_alive`, with the slice indexing's bounds-check panic
modelled as `none`. -/
def GameOfLife.is_alive (g : GameOfLife) (x y : Nat) : Option Bool :=
  let index := x / CLUSTER_LEN * g.height + y
  let offset := x % CLUSTER_LEN + 1
  if index < g.grid.length then some ((g.grid.getD index 0 >>> offset &&& 1) == 1)
  else none

/-- Iterates `tick` for `n` successive calls. -/
def tickN : Nat → GameOfLife → GameOfLife
  | 0, g => g
  | n + 1, g => tickN n g.tick

/-- The grid bit addressed by the lane codec for cell `(x, y)`, read exactly
as `is_alive` reads it (total version, for in-range coordinates). -/
def aliveAt (g : GameOfLife) (x y : Nat) : Bool :=
  (g.grid.getD (x / CLUSTER_LEN * g.height + y) 0 >>> (x % CLUSTER_LEN + 1) &&& 1) == 1

/-- Naive reference (spec §8, "dead-border invariant"): a pre-tick cell read
with explicit bounds checks, every coordinate outside
`[0,width) × [0,height)` reading as dead. -/
def refAlive (g : GameOfLife) (x y : Int) : Bool :=
  decide (0 ≤ x) && decide (x < (g.width : Int)) && decide (0 ≤ y) &&
    decide (y < (g.height : Int)) && aliveAt g x.toNat y.toNat

/-- The eight neighbour offsets enumerated by the naive reference. -/
def nbOffsets : List (Int × Int) :=
  [(-1, -1), (0, -1), (1, -1), (-1, 0), (1, 0), (-1, 1), (0, 1), (1, 1)]

/-- Naive reference: the number of live neighbours of `(x, y)`, bounds-checked. -/
def nbCount (g : GameOfLife) (x y : Int) : Nat :=
  (nbOffsets.map fun d => (refAlive g (x + d.1) (y + d.2)).toNat).sum

/-- Conway's rule: alive next iff exactly three live neighbours, or alive now
with exactly two. -/
def lifeStep (center : Bool) (n : Nat) : Bool := n == 3 || (center && n == 2)

/-- Naive reference next state at integer coordinates. -/
def conwayNext (g : GameOfLife) (x y : Int) : Bool :=
  lifeStep (refAlive g x y) (nbCount g x y)

/-- Naive reference next state of an in-grid cell. -/
def naiveNext (g : GameOfLife) (x y : Nat) : Bool := conwayNext g x y

/-- Representation invariant established by `new`: the storage holds exactly
`ceil(width / 62) * height` words and every word is a 64-bit value. -/
def WF (g : GameOfLife) : Prop :=
  g.grid.length = (g.width + CLUSTER_LEN - 1) / CLUSTER_LEN * g.height ∧
  ∀ u ∈ g.grid, u < 2 ^ 64

/-- The count of live bits among the 8 in-word neighbours of lane bit `p`:
positions `p-1`, `p`, `p+1` of the words above and below, and positions
`p-1`, `p+1` of the row's own word. -/
def nbBitCount (above row below p : Nat) : Nat :=
  (above.testBit (p - 1)).toNat + (above.testBit p).toNat + (above.testBit (p + 1)).toNat
    + (row.testBit (p - 1)).toNat + (row.testBit (p + 1)).toNat
    + (below.testBit (p - 1)).toNat + (below.testBit p).toNat + (below.testBit (p + 1)).toNat

/-! ### Bit-level utility lemmas -/

theorem testBit_ge64 {x : Nat} (j : Nat) (hx : x < 2 ^ 64) (hj : 64 ≤ j) :
    x.testBit j = false :=
  Nat.testBit_lt_two_pow (lt_of_lt_of_le hx (Nat.pow_le_pow_right (by norm_num) hj))

theorem shl64_lt (x n : Nat) : shl64 x n < 2 ^ 64 :=
  Nat.mod_lt _ (by norm_num)

theorem not64_lt (x : Nat) (hx : x < 2 ^ 64) : not64 x < 2 ^ 64 :=
  Nat.xor_lt_two_pow hx (by norm_num)

theorem edge_mask_lt : edge_mask < 2 ^ 64 := by norm_num [edge_mask]

theorem tail_mask_lt (w : Nat) : tail_mask_of w < 2 ^ 64 :=
  Nat.or_lt_two_pow edge_mask_lt (shl64_lt _ _)

theorem not64_testBit (x j : Nat) (hx : x < 2 ^ 64) :
    (not64 x).testBit j = (decide (j < 64) && !x.testBit j) := by
  have h1 : (18446744073709551615 : Nat).testBit j = decide (j < 64) :=
    Nat.testBit_two_pow_sub_one 64 j
  by_cases hj : j < 64
  · simp [not64, Nat.testBit_xor, h1, hj, Bool.xor_true]
  · simp [not64, Nat.testBit_xor, h1, hj, testBit_ge64 j hx (by omega)]

theorem edge_mask_testBit (j : Nat) :
    edge_mask.testBit j = (decide (j = 0) || decide (j = 63)) := by
  have h : edge_mask = 2 ^ 63 ||| 2 ^ 0 := by decide
  rw [h, Bool.eq_iff_iff]
  simp only [Nat.testBit_or, Nat.testBit_two_pow, Bool.or_eq_true, decide_eq_true_eq]
  omega

theorem not64_one_testBit (m : Nat) :
    (not64 1).testBit m = (decide (1 ≤ m) && decide (m < 64)) := by
  rw [not64_testBit 1 m (by norm_num)]
  rcases m with _ | m
  · simp
  · have h : (1 : Nat).testBit (m + 1) = false :=
      Nat.testBit_lt_two_pow (by have := Nat.one_lt_two_pow_iff.mpr (Nat.succ_ne_zero m); omega)
    simp [h, Bool.and_comm]

theorem tail_mask_of_testBit (w j : Nat) :
    (tail_mask_of w).testBit j =
      decide (j = 0 ∨ j = 63 ∨ ((w + 62 - 1) % 62 + 2 ≤ j ∧ j < 64)) := by
  simp only [tail_mask_of, shl64, CLUSTER_LEN, Nat.testBit_or, edge_mask_testBit,
    Nat.testBit_mod_two_pow, Nat.testBit_shiftLeft, not64_one_testBit, ge_iff_le]
  rw [Bool.eq_iff_iff]
  simp only [Bool.or_eq_true, Bool.and_eq_true, decide_eq_true_eq]
  omega

/-! ### The transition kernel satisfies Conway's rule on every lane -/

theorem tick_cluster_bit (above row below q : Nat) (hq : q ≤ 61) :
    (tick_cluster row above below).testBit (q + 1) =
      lifeStep (row.testBit (q + 1))
        ((above.testBit q).toNat + (above.testBit (q + 1)).toNat + (above.testBit (q + 2)).toNat
          + (row.testBit q).toNat + (row.testBit (q + 2)).toNat
          + (below.testBit q).toNat + (below.testBit (q + 1)).toNat
          + (below.testBit (q + 2)).toNat) := by
  have hge : 1 ≤ q + 1 := by omega
  have hlt : q + 1 < 64 := by omega
  have e3 : 1 + (q + 1) = q + 2 := by omega
  simp only [tick_cluster, shl64, not64]
  simp only [Nat.testBit_and, Nat.testBit_or, Nat.testBit_xor, Nat.testBit_mod_two_pow,
    Nat.testBit_shiftLeft, Nat.testBit_shiftRight, Nat.testBit_two_pow_sub_one,
    Nat.add_sub_cancel, ge_iff_le, hge, hlt, e3, decide_True, Bool.true_and, Bool.and_true]
  generalize above.testBit q = a0
  generalize above.testBit (q + 1) = a1
  generalize above.testBit (q + 2) = a2
  generalize row.testBit q = r0
  generalize row.testBit (q + 1) = r1
  generalize row.testBit (q + 2) = r2
  generalize below.testBit q = b0
  generalize below.testBit (q + 1) = b1
  generalize below.testBit (q + 2) = b2
  revert a0 a1 a2 r0 r1 r2 b0 b1 b2
  decide

theorem lifeStep_eq_true (center : Bool) (n : Nat) :
    lifeStep center n = true ↔ (n = 3 ∨ (center = true ∧ n = 2)) := by
  simp [lifeStep, Bool.or_eq_true, Bool.and_eq_true, beq_iff_eq]

theorem tick_cluster_nb (above row below p : Nat) (hp1 : 1 ≤ p) (hp2 : p ≤ 62) :
    (tick_cluster row above below).testBit p =
      lifeStep (row.testBit p) (nbBitCount above row below p) := by
  obtain ⟨q, rfl⟩ : ∃ q, p = q + 1 := ⟨p - 1, by omega⟩
  rw [tick_cluster_bit above row below q (by omega)]
  simp [nbBitCount, Nat.add_sub_cancel]

/-- Claim C2: for every triple of 64-bit words `(above, row, below)` and every
lane bit position `p` with `1 ≤ p ≤ 62`, the bit at position `p` of the word
produced by `tick_cluster` is `1` iff the count of live bits among the 8
neighbours (positions `p-1`, `p`, `p+1` of `above` and `below`, positions
`p-1`, `p+1` of `row`) is exactly 3, or bit `p` of `row` is `1` and that
count is exactly 2. -/
theorem tick_cluster_conway (above row below : Nat) (ha : above < 2 ^ 64)
    (hr : row < 2 ^ 64) (hb : below < 2 ^ 64) (p : Nat) (hp1 : 1 ≤ p) (hp2 : p ≤ 62) :
    ((tick_cluster row above below).testBit p = true ↔
      (nbBitCount above row below p = 3 ∨
        (row.testBit p = true ∧ nbBitCount above row below p = 2))) := by
  rw [tick_cluster_nb above row below p hp1 hp2, lifeStep_eq_true]

/-- Witness for `tick_cluster_conway`: a vertical triple in the word above
lane bit 2 gives birth there. -/
theorem tick_cluster_conway_witness :
    ((7 : Nat) < 2 ^ 64 ∧ (0 : Nat) < 2 ^ 64 ∧ 1 ≤ 2 ∧ 2 ≤ 62) ∧
      ((tick_cluster 0 7 0).testBit 2 = true ↔
        (nbBitCount 7 0 0 2 = 3 ∨ ((0 : Nat).testBit 2 = true ∧ nbBitCount 7 0 0 2 = 2))) :=
  ⟨⟨by decide, by decide, by decide, by decide⟩,
    tick_cluster_conway 7 0 0 (by decide) (by decide) (by decide) 2 (by decide) (by decide)⟩

/-- Claim C5: for every positive width, the tail mask computed from
`tail_width = (width + 61) % 62 + 1` sets exactly bit 0, bit 63, and the lane
bits for local x-offsets at or beyond `width % 62` (lane offset `k` lives at
bit `k + 1`); when the width is a multiple of 62 it sets no lane bits. -/
theorem tail_mask_char (w : Nat) (hw : 0 < w) (j : Nat) (hj : j < 64) :
    ((tail_mask_of w).testBit j = true ↔
      (j = 0 ∨ j = 63 ∨ (w % 62 ≠ 0 ∧ w % 62 + 1 ≤ j ∧ j ≤ 62))) := by
  rw [tail_mask_of_testBit]
  simp only [decide_eq_true_eq]
  omega

/-- Witness for `tail_mask_char`: width 70 (8 valid lanes in the last
column) clears lane bit 10. -/
theorem tail_mask_char_witness :
    ((0 : Nat) < 70 ∧ (10 : Nat) < 64) ∧
      ((tail_mask_of 70).testBit 10 = true ↔
        (10 = 0 ∨ 10 = 63 ∨ (70 % 62 ≠ 0 ∧ 70 % 62 + 1 ≤ 10 ∧ 10 ≤ 62))) :=
  ⟨⟨by decide, by decide⟩, tail_mask_char 70 (by decide) 10 (by decide)⟩

/-! ### List access utilities -/

theorem zipWith_getD (f : Nat → Nat → Nat) (as bs : List Nat) (i : Nat)
    (h1 : i < as.length) (h2 : i < bs.length) :
    (List.zipWith f as bs).getD i 0 = f (as.getD i 0) (bs.getD i 0) := by
  simp [List.getD_eq_getElem?_getD, List.getElem?_zipWith,
    List.getElem?_eq_getElem, h1, h2]

theorem zipWith3_length (f : Nat → Nat → Nat → Nat) :
    ∀ as bs cs : List Nat,
      (zipWith3 f as bs cs).length = min (min as.length bs.length) cs.length := by
  intro as
  induction as with
  | nil => intro bs cs; cases bs <;> cases cs <;> simp [zipWith3]
  | cons a as ih =>
    intro bs cs
    cases bs with
    | nil => cases cs <;> simp [zipWith3]
    | cons b bs =>
      cases cs with
      | nil => simp [zipWith3]
      | cons c cs => simp [zipWith3, ih bs cs]; omega

theorem zipWith3_getD (f : Nat → Nat → Nat → Nat) :
    ∀ (as bs cs : List Nat) (i : Nat), i < as.length → i < bs.length → i < cs.length →
      (zipWith3 f as bs cs).getD i 0 = f (as.getD i 0) (bs.getD i 0) (cs.getD i 0) := by
  intro as
  induction as with
  | nil => intro bs cs i h1 h2 h3; simp at h1
  | cons a as ih =>
    intro bs cs i h1 h2 h3
    cases bs with
    | nil => simp at h2
    | cons b bs =>
      cases cs with
      | nil => simp at h3
      | cons c cs =>
        cases i with
        | zero => simp [zipWith3]
        | succ i =>
          simpa [zipWith3] using
            ih bs cs i (by simpa using h1) (by simpa using h2) (by simpa using h3)

theorem tickColumnGo_length (above : Nat) (col : List Nat) :
    (tickColumnGo above col).length = col.length := by
  induction col generalizing above with
  | nil => rfl
  | cons c rest ih =>
    cases rest with
    | nil => rfl
    | cons b rest2 => simpa [tickColumnGo] using ih c

theorem tickColumnGo_getD (above : Nat) (col : List Nat) (y : Nat) (hy : y < col.length) :
    (tickColumnGo above col).getD y 0 =
      tick_cluster (col.getD y 0) (if y = 0 then above else col.getD (y - 1) 0)
        (col.getD (y + 1) 0) := by
  induction col generalizing above y with
  | nil => simp at hy
  | cons c rest ih =>
    cases rest with
    | nil =>
      cases y with
      | zero => simp [tickColumnGo]
      | succ y => simp at hy
    | cons b rest2 =>
      cases y with
      | zero => simp [tickColumnGo]
      | succ y =>
        have hy2 : y < (b :: rest2).length := by simpa using hy
        rw [show tickColumnGo above (c :: b :: rest2) =
          tick_cluster c above b :: tickColumnGo c (b :: rest2) from rfl]
        rw [List.getD_cons_succ, ih c y hy2]
        cases y with
        | zero => simp
        | succ y => simp

theorem chunkCols_length (c h : Nat) (l : List Nat) : (chunkCols c h l).length = c := by
  induction c generalizing l with
  | zero => rfl
  | succ c ih => simp [chunkCols, ih]

theorem chunkCols_getD (c h : Nat) (l : List Nat) (i : Nat) (hi : i < c) :
    (chunkCols c h l).getD i [] = (l.drop (i * h)).take h := by
  induction c generalizing l i with
  | zero => omega
  | succ c ih =>
    cases i with
    | zero => simp [chunkCols]
    | succ i =>
      rw [show chunkCols (c + 1) h l = l.take h :: chunkCols c h (l.drop h) from rfl]
      rw [List.getD_cons_succ, ih (l.drop h) i (by omega), List.drop_drop]
      congr 2
      ring

theorem chunkCols_col_length (c h : Nat) (l : List Nat) (i : Nat) (hi : i < c)
    (hl : c * h ≤ l.length) : ((chunkCols c h l).getD i []).length = h := by
  rw [chunkCols_getD c h l i hi]
  have : (i + 1) * h ≤ c * h := Nat.mul_le_mul_right h (by omega)
  simp only [List.length_take, List.length_drop]
  have : i * h + h ≤ l.length := by
    have e : (i + 1) * h = i * h + h := by ring
    omega
  omega

theorem chunkCols_cell (c h : Nat) (l : List Nat) (i y : Nat) (hi : i < c) (hy : y < h) :
    ((chunkCols c h l).getD i []).getD y 0 = l.getD (i * h + y) 0 := by
  rw [chunkCols_getD c h l i hi]
  simp [List.getD_eq_getElem?_getD, List.getElem?_take_of_lt hy, List.getElem?_drop]

theorem chunkCols_mem_words (c h : Nat) (l : List Nat) :
    ∀ col ∈ chunkCols c h l, ∀ u ∈ col, u ∈ l := by
  induction c generalizing l with
  | zero => simp [chunkCols]
  | succ c ih =>
    intro col hcol u hu
    rw [show chunkCols (c + 1) h l = l.take h :: chunkCols c h (l.drop h) from rfl] at hcol
    rcases List.mem_cons.mp hcol with rfl | hcol
    · exact List.take_subset h l hu
    · exact List.mem_of_mem_drop (ih (l.drop h) col hcol u hu)

theorem flatten_getD (css : List (List Nat)) (h : Nat)
    (hcol : ∀ col ∈ css, col.length = h) :
    ∀ c y : Nat, c < css.length → y < h →
      css.flatten.getD (c * h + y) 0 = (css.getD c []).getD y 0 := by
  induction css with
  | nil => intro c y hc; simp at hc
  | cons col rest ih =>
    intro c y hc hy
    have hlen : col.length = h := hcol col (by simp)
    cases c with
    | zero =>
      simp only [List.flatten_cons, Nat.zero_mul, Nat.zero_add, List.getD_cons_zero]
      simp [List.getD_eq_getElem?_getD, List.getElem?_append_left (hlen ▸ hy)]
    | succ c =>
      have e : (c + 1) * h + y = col.length + (c * h + y) := by rw [hlen]; ring
      simp only [List.flatten_cons, e, List.getD_cons_succ]
      rw [List.getD_eq_getElem?_getD, List.getElem?_append_right (by omega),
        Nat.add_sub_cancel_left, ← List.getD_eq_getElem?_getD]
      exact ih (fun a ha => hcol a (by simp [ha])) c y (by simpa using hc) hy

theorem flatten_length_uniform (css : List (List Nat)) (h : Nat)
    (hcol : ∀ col ∈ css, col.length = h) : css.flatten.length = css.length * h := by
  induction css with
  | nil => simp
  | cons col rest ih =>
    have hlen : col.length = h := hcol col (by simp)
    simp only [List.flatten_cons, List.length_append, List.length_cons, hlen,
      ih (fun a ha => hcol a (by simp [ha]))]
    ring

/-! ### Word-level characterization of the halo exchanges -/

theorem merge_testBit_true (w X m j : Nat) (hm : m.testBit j = true) :
    (w ^^^ ((X ^^^ w) &&& m)).testBit j = X.testBit j := by
  simp only [Nat.testBit_xor, Nat.testBit_and, hm]
  cases w.testBit j <;> cases X.testBit j <;> simp

theorem merge_testBit_false (w X m j : Nat) (hm : m.testBit j = false) :
    (w ^^^ ((X ^^^ w) &&& m)).testBit j = w.testBit j := by
  simp [Nat.testBit_xor, Nat.testBit_and, hm]

theorem shl64_testBit (x n j : Nat) :
    (shl64 x n).testBit j =
      (decide (j < 64) && (decide (j ≥ n) && x.testBit (j - n))) := by
  rw [shl64, Nat.testBit_mod_two_pow, Nat.testBit_shiftLeft]

theorem exchFirst_testBit (f s : Nat) (j : Nat) :
    (exchFirst f s).testBit j =
      if j = 0 then false else if j = 63 then s.testBit 1 else f.testBit j := by
  by_cases h0 : j = 0
  · subst h0
    rw [exchFirst, merge_testBit_true _ _ _ _ (by rw [edge_mask_testBit]; simp),
      shl64_testBit, show CLUSTER_LEN = 62 from rfl, if_pos rfl]
    norm_num
  · by_cases h63 : j = 63
    · subst h63
      rw [exchFirst, merge_testBit_true _ _ _ _ (by rw [edge_mask_testBit]; simp),
        shl64_testBit, if_neg h0, if_pos rfl, show CLUSTER_LEN = 62 from rfl]
      norm_num
    · rw [exchFirst, merge_testBit_false _ _ _ _
        (by rw [edge_mask_testBit]; simp [h0, h63]), if_neg h0, if_neg h63]

theorem exchMid_testBit (l m r : Nat) (hl : l < 2 ^ 64) (j : Nat) :
    (exchMid l m r).testBit j =
      if j = 0 then l.testBit 62 else if j = 63 then r.testBit 1 else m.testBit j := by
  by_cases h0 : j = 0
  · subst h0
    rw [exchMid, merge_testBit_true _ _ _ _ (by rw [edge_mask_testBit]; simp),
      Nat.testBit_or, shl64_testBit, show CLUSTER_LEN = 62 from rfl,
      Nat.testBit_shiftRight, if_pos rfl]
    norm_num
  · by_cases h63 : j = 63
    · subst h63
      rw [exchMid, merge_testBit_true _ _ _ _ (by rw [edge_mask_testBit]; simp),
        Nat.testBit_or, shl64_testBit, show CLUSTER_LEN = 62 from rfl,
        Nat.testBit_shiftRight, if_neg h0, if_pos rfl]
      rw [show (62 + 63 : Nat) = 125 from rfl, testBit_ge64 125 hl (by omega)]
      norm_num
    · rw [exchMid, merge_testBit_false _ _ _ _
        (by rw [edge_mask_testBit]; simp [h0, h63]), if_neg h0, if_neg h63]

theorem exchLast_testBit (w l x : Nat) (hl : l < 2 ^ 64) (j : Nat) (hj : j ≤ 63) :
    (exchLast (tail_mask_of w) l x).testBit j =
      if j = 0 then l.testBit 62
      else if (w + 61) % 62 + 2 ≤ j then false
      else x.testBit j := by
  have ht' : (w + 61) % 62 ≤ 61 := by omega
  by_cases h0 : j = 0
  · subst h0
    rw [exchLast, merge_testBit_true _ _ _ _ (by rw [tail_mask_of_testBit]; simp),
      show CLUSTER_LEN = 62 from rfl, Nat.testBit_shiftRight, if_pos rfl]
  · rw [if_neg h0]
    by_cases ht : (w + 61) % 62 + 2 ≤ j
    · rw [exchLast, merge_testBit_true _ _ _ _
        (by rw [tail_mask_of_testBit]; simp only [decide_eq_true_eq]; omega),
        show CLUSTER_LEN = 62 from rfl, Nat.testBit_shiftRight, if_pos ht]
      exact testBit_ge64 (62 + j) hl (by omega)
    · rw [exchLast, merge_testBit_false _ _ _ _
        (by rw [tail_mask_of_testBit]; simp only [decide_eq_false_iff_not]; omega),
        if_neg ht]

theorem maskWord_testBit (w x : Nat) (j : Nat) (hj : j ≤ 63) :
    (x &&& not64 (tail_mask_of w)).testBit j =
      if j = 0 then false
      else if (w + 61) % 62 + 2 ≤ j then false
      else x.testBit j := by
  have ht' : (w + 61) % 62 ≤ 61 := by omega
  rw [Nat.testBit_and, not64_testBit _ _ (tail_mask_lt w), tail_mask_of_testBit]
  by_cases h0 : j = 0
  · subst h0; simp
  · rw [if_neg h0]
    by_cases ht : (w + 61) % 62 + 2 ≤ j
    · have hd : (j = 0 ∨ j = 63 ∨ ((w + 62 - 1) % 62 + 2 ≤ j ∧ j < 64)) := by omega
      rw [if_pos ht]
      simp only [hd, decide_true_eq_true, decide_True, Bool.not_true, Bool.and_false,
        Bool.false_and, Bool.and_self]
    · have hd : ¬(j = 0 ∨ j = 63 ∨ ((w + 62 - 1) % 62 + 2 ≤ j ∧ j < 64)) := by omega
      rw [if_neg ht]
      simp [hd, show j < 64 by omega]
      intro _
      omega

/-- The exchanges touch only the two scratch bits: lane bits 1–62 are kept. -/
theorem exchFirst_lane (f s j : Nat) (h1 : 1 ≤ j) (h2 : j ≤ 62) :
    (exchFirst f s).testBit j = f.testBit j := by
  rw [exchFirst_testBit]
  simp [show j ≠ 0 by omega, show j ≠ 63 by omega]

theorem exchMid_lane (l m r : Nat) (hl : l < 2 ^ 64) (j : Nat) (h1 : 1 ≤ j) (h2 : j ≤ 62) :
    (exchMid l m r).testBit j = m.testBit j := by
  rw [exchMid_testBit l m r hl]
  simp [show j ≠ 0 by omega, show j ≠ 63 by omega]

theorem exchFirst_lt (f s : Nat) (hf : f < 2 ^ 64) : exchFirst f s < 2 ^ 64 :=
  Nat.xor_lt_two_pow hf (Nat.and_lt_two_pow _ edge_mask_lt)

theorem exchMid_lt (l m r : Nat) (hm : m < 2 ^ 64) : exchMid l m r < 2 ^ 64 :=
  Nat.xor_lt_two_pow hm (Nat.and_lt_two_pow _ edge_mask_lt)

theorem exchLast_lt (tm l x : Nat) (hx : x < 2 ^ 64) (htm : tm < 2 ^ 64) :
    exchLast tm l x < 2 ^ 64 :=
  Nat.xor_lt_two_pow hx (Nat.and_lt_two_pow _ htm)

/-- Lemma: `exchMid` reads its left neighbour only through lane bit 62. -/
theorem exchMid_left_congr (l l2 m r : Nat) (hl : l < 2 ^ 64) (hl2 : l2 < 2 ^ 64)
    (h62 : l.testBit 62 = l2.testBit 62) : exchMid l m r = exchMid l2 m r := by
  apply Nat.eq_of_testBit_eq
  intro j
  rw [exchMid_testBit l m r hl, exchMid_testBit l2 m r hl2, h62]

/-- Lemma: `exchLast` (with a tail mask) reads its left neighbour only through lane
bit 62. -/
theorem exchLast_left_congr (w l l2 x : Nat) (hl : l < 2 ^ 64) (hl2 : l2 < 2 ^ 64)
    (hx : x < 2 ^ 64) (h62 : l.testBit 62 = l2.testBit 62) :
    exchLast (tail_mask_of w) l x = exchLast (tail_mask_of w) l2 x := by
  apply Nat.eq_of_testBit_eq
  intro j
  by_cases hj : j ≤ 63
  · rw [exchLast_testBit w l x hl j hj, exchLast_testBit w l2 x hl2 j hj, h62]
  · rw [testBit_ge64 j (exchLast_lt _ _ _ hx (tail_mask_lt w)) (by omega),
      testBit_ge64 j (exchLast_lt _ _ _ hx (tail_mask_lt w)) (by omega)]

/-! ### The exchange phase, column by column -/

/-- The value each column holds after the halo-exchange phase of `tick`,
just before `tick_column` consumes it, expressed against the original list
of columns: a single column is masked with `!tail_mask`, the first column
exchanges with the second, the last column tail-exchanges with its left
neighbour, and middle columns exchange with both neighbours. -/
def exchColOf (tm : Nat) (cs : List (List Nat)) (c : Nat) : List Nat :=
  if cs.length = 1 then (cs.getD c []).map fun u => u &&& not64 tm
  else if c = 0 then List.zipWith exchFirst (cs.getD 0 []) (cs.getD 1 [])
  else if c = cs.length - 1 then
    List.zipWith (exchLast tm) (cs.getD (c - 1) []) (cs.getD c [])
  else zipWith3 exchMid (cs.getD (c - 1) []) (cs.getD c []) (cs.getD (c + 1) [])

theorem tail_mask_bit1 (w : Nat) : (tail_mask_of w).testBit 1 = false := by
  rw [tail_mask_of_testBit]
  simp only [decide_eq_false_iff_not]
  omega

theorem getD_mem {α : Type} (l : List α) (d : α) (i : Nat) (hi : i < l.length) :
    l.getD i d ∈ l := by
  rw [List.getD_eq_getElem?_getD, List.getElem?_eq_getElem hi]
  exact List.getElem_mem hi

theorem ext_getD {α : Type} (d : α) (as bs : List α) (hl : as.length = bs.length)
    (h : ∀ i, i < as.length → as.getD i d = bs.getD i d) : as = bs := by
  apply List.ext_getElem hl
  intro i h1 h2
  have hi := h i h1
  rwa [List.getD_eq_getElem?_getD, List.getD_eq_getElem?_getD,
    List.getElem?_eq_getElem h1, List.getElem?_eq_getElem h2, Option.getD_some,
    Option.getD_some] at hi

theorem map_getD (f : Nat → Nat) (l : List Nat) (y : Nat) (hy : y < l.length) :
    (l.map f).getD y 0 = f (l.getD y 0) := by
  simp [List.getD_eq_getElem?_getD, List.getElem?_map, List.getElem?_eq_getElem hy]

theorem cols_getD_length (cs : List (List Nat)) (h : Nat)
    (hlen : ∀ col ∈ cs, col.length = h) (i : Nat) (hi : i < cs.length) :
    (cs.getD i []).length = h :=
  hlen _ (getD_mem cs [] i hi)

theorem getD_getD_lt (cs : List (List Nat))
    (hwords : ∀ col ∈ cs, ∀ u ∈ col, u < 2 ^ 64) (c y : Nat) :
    (cs.getD c []).getD y 0 < 2 ^ 64 := by
  by_cases hc : c < cs.length
  · by_cases hy : y < (cs.getD c []).length
    · exact hwords _ (getD_mem cs [] c hc) _ (getD_mem _ 0 y hy)
    · rw [List.getD_eq_default (cs.getD c []) 0 (by omega)]; norm_num
  · rw [List.getD_eq_default cs [] (by omega), List.getD_nil]
    norm_num

theorem exchColOf_length (tm : Nat) (cs : List (List Nat)) (h : Nat)
    (hlen : ∀ col ∈ cs, col.length = h) (c : Nat) (hc : c < cs.length) :
    (exchColOf tm cs c).length = h := by
  have hget := cols_getD_length cs h hlen
  rw [exchColOf]
  split_ifs with h1 h2 h3
  · rw [List.length_map, hget c hc]
  · simp only [List.length_zipWith, hget 0 (by omega), hget 1 (by omega)]
    omega
  · simp only [List.length_zipWith, hget (c - 1) (by omega), hget c hc]
    omega
  · rw [zipWith3_length, hget (c - 1) (by omega), hget c hc, hget (c + 1) (by omega)]
    omega

theorem exchColOf_getD_lt (tm : Nat) (htm : tm < 2 ^ 64) (cs : List (List Nat)) (h : Nat)
    (hlen : ∀ col ∈ cs, col.length = h)
    (hwords : ∀ col ∈ cs, ∀ u ∈ col, u < 2 ^ 64) (c : Nat) (hc : c < cs.length) (y : Nat) :
    (exchColOf tm cs c).getD y 0 < 2 ^ 64 := by
  have hget := cols_getD_length cs h hlen
  by_cases hy : y < h
  · rw [exchColOf]
    split_ifs with h1 h2 h3
    · rw [map_getD _ _ _ (by rw [hget c hc]; omega)]
      exact Nat.and_lt_two_pow _ (not64_lt tm htm)
    · rw [zipWith_getD _ _ _ _ (by rw [hget 0 (by omega)]; omega)
        (by rw [hget 1 (by omega)]; omega)]
      exact exchFirst_lt _ _ (getD_getD_lt cs hwords 0 y)
    · rw [zipWith_getD _ _ _ _ (by rw [hget (c - 1) (by omega)]; omega)
        (by rw [hget c hc]; omega)]
      exact exchLast_lt _ _ _ (getD_getD_lt cs hwords c y) htm
    · rw [zipWith3_getD _ _ _ _ _ (by rw [hget (c - 1) (by omega)]; omega)
        (by rw [hget c hc]; omega) (by rw [hget (c + 1) (by omega)]; omega)]
      exact exchMid_lt _ _ _ (getD_getD_lt cs hwords c y)
  · rw [List.getD_eq_default _ _ (by rw [exchColOf_length tm cs h hlen c hc]; omega)]
    norm_num

/-- A non-final exchanged column agrees with the original column on lane
bit 62 (the bit its right neighbour's exchange reads). -/
theorem exchColOf_lane62 (tm : Nat) (cs : List (List Nat)) (h : Nat)
    (hlen : ∀ col ∈ cs, col.length = h)
    (hwords : ∀ col ∈ cs, ∀ u ∈ col, u < 2 ^ 64) (c : Nat) (hc : c + 1 < cs.length)
    (y : Nat) (hy : y < h) :
    ((exchColOf tm cs c).getD y 0).testBit 62 = ((cs.getD c []).getD y 0).testBit 62 := by
  have hget := cols_getD_length cs h hlen
  rw [exchColOf]
  split_ifs with h1 h2 h3
  · omega
  · rw [zipWith_getD _ _ _ _ (by rw [hget 0 (by omega)]; omega)
      (by rw [hget 1 (by omega)]; omega), h2]
    exact exchFirst_lane _ _ 62 (by omega) (by omega)
  · omega
  · rw [zipWith3_getD _ _ _ _ _ (by rw [hget (c - 1) (by omega)]; omega)
      (by rw [hget c (by omega)]; omega) (by rw [hget (c + 1) (by omega)]; omega)]
    exact exchMid_lane _ _ _ (getD_getD_lt cs hwords (c - 1) y) 62 (by omega) (by omega)

/-- The mid-exchange of column `k + 1`, computed from the already-exchanged
column `k` (as the source's sliding window does), equals the ideal exchange
computed from the original columns. -/
theorem exchMid_step (w : Nat) (cs : List (List Nat)) (h : Nat)
    (hlen : ∀ col ∈ cs, col.length = h)
    (hwords : ∀ col ∈ cs, ∀ u ∈ col, u < 2 ^ 64) (k : Nat) (hk : k + 2 < cs.length) :
    zipWith3 exchMid (exchColOf (tail_mask_of w) cs k) (cs.getD (k + 1) [])
        (cs.getD (k + 2) []) = exchColOf (tail_mask_of w) cs (k + 1) := by
  have hget := cols_getD_length cs h hlen
  have hlenA : (exchColOf (tail_mask_of w) cs k).length = h :=
    exchColOf_length _ cs h hlen k (by omega)
  have hrhs : exchColOf (tail_mask_of w) cs (k + 1) =
      zipWith3 exchMid (cs.getD k []) (cs.getD (k + 1) []) (cs.getD (k + 2) []) := by
    rw [exchColOf, if_neg (by omega), if_neg (by omega), if_neg (by omega)]
    simp
  rw [hrhs]
  apply ext_getD 0
  · rw [zipWith3_length, zipWith3_length, hlenA, hget k (by omega)]
  · intro y hy
    rw [zipWith3_length, hlenA, hget (k + 1) (by omega), hget (k + 2) (by omega)] at hy
    have hy' : y < h := by omega
    rw [zipWith3_getD _ _ _ _ _ (by omega) (by rw [hget (k + 1) (by omega)]; omega)
        (by rw [hget (k + 2) (by omega)]; omega),
      zipWith3_getD _ _ _ _ _ (by rw [hget k (by omega)]; omega)
        (by rw [hget (k + 1) (by omega)]; omega) (by rw [hget (k + 2) (by omega)]; omega)]
    exact exchMid_left_congr _ _ _ _
      (exchColOf_getD_lt _ (tail_mask_lt w) cs h hlen hwords k (by omega) y)
      (getD_getD_lt cs hwords k y)
      (exchColOf_lane62 _ cs h hlen hwords k (by omega) y hy')

/-- The tail exchange of the final column, computed from the already-exchanged
column `k`, equals the ideal exchange computed from the original columns. -/
theorem exchLast_step (w : Nat) (cs : List (List Nat)) (h : Nat)
    (hlen : ∀ col ∈ cs, col.length = h)
    (hwords : ∀ col ∈ cs, ∀ u ∈ col, u < 2 ^ 64) (k : Nat) (hk : k + 2 = cs.length) :
    List.zipWith (exchLast (tail_mask_of w)) (exchColOf (tail_mask_of w) cs k)
        (cs.getD (k + 1) []) = exchColOf (tail_mask_of w) cs (k + 1) := by
  have hget := cols_getD_length cs h hlen
  have hlenA : (exchColOf (tail_mask_of w) cs k).length = h :=
    exchColOf_length _ cs h hlen k (by omega)
  have hrhs : exchColOf (tail_mask_of w) cs (k + 1) =
      List.zipWith (exchLast (tail_mask_of w)) (cs.getD k []) (cs.getD (k + 1) []) := by
    rw [exchColOf, if_neg (by omega), if_neg (by omega), if_pos (by omega)]
    simp
  rw [hrhs]
  apply ext_getD 0
  · simp only [List.length_zipWith, hlenA, hget k (by omega)]
  · intro y hy
    simp only [List.length_zipWith, hlenA, hget (k + 1) (by omega)] at hy
    have hy' : y < h := by omega
    rw [zipWith_getD _ _ _ _ (by omega) (by rw [hget (k + 1) (by omega)]; omega),
      zipWith_getD _ _ _ _ (by rw [hget k (by omega)]; omega)
        (by rw [hget (k + 1) (by omega)]; omega)]
    exact exchLast_left_congr w _ _ _
      (exchColOf_getD_lt _ (tail_mask_lt w) cs h hlen hwords k (by omega) y)
      (getD_getD_lt cs hwords k y)
      (getD_getD_lt cs hwords (k + 1) y)
      (exchColOf_lane62 _ cs h hlen hwords k (by omega) y hy')

/-- The sliding-window loop of `tick` advances each remaining column with its
ideal exchanged value. -/
theorem tickLoop_char (w : Nat) (cs : List (List Nat)) (h : Nat)
    (hlen : ∀ col ∈ cs, col.length = h)
    (hwords : ∀ col ∈ cs, ∀ u ∈ col, u < 2 ^ 64) :
    ∀ m k : Nat, k + 2 + m = cs.length →
      tickLoop (tail_mask_of w) (exchColOf (tail_mask_of w) cs k) (cs.getD (k + 1) [])
          (cs.drop (k + 2)) =
        (List.range' k (m + 2)).map fun c => tick_column (exchColOf (tail_mask_of w) cs c) := by
  intro m
  induction m with
  | zero =>
    intro k hk
    rw [List.drop_eq_nil_of_le (by omega)]
    rw [show tickLoop (tail_mask_of w) (exchColOf (tail_mask_of w) cs k)
        (cs.getD (k + 1) []) [] =
      [tick_column (exchColOf (tail_mask_of w) cs k),
        tick_column (List.zipWith (exchLast (tail_mask_of w))
          (exchColOf (tail_mask_of w) cs k) (cs.getD (k + 1) []))] from rfl]
    rw [exchLast_step w cs h hlen hwords k (by omega)]
    rfl
  | succ m ih =>
    intro k hk
    have hdrop : cs.drop (k + 2) = cs.getD (k + 2) [] :: cs.drop (k + 3) := by
      rw [List.drop_eq_getElem_cons (by omega)]
      congr 1
      simp [List.getD_eq_getElem?_getD, List.getElem?_eq_getElem (show k + 2 < cs.length by omega)]
    rw [hdrop]
    rw [show tickLoop (tail_mask_of w) (exchColOf (tail_mask_of w) cs k)
        (cs.getD (k + 1) []) (cs.getD (k + 2) [] :: cs.drop (k + 3)) =
      tick_column (exchColOf (tail_mask_of w) cs k) ::
        tickLoop (tail_mask_of w)
          (zipWith3 exchMid (exchColOf (tail_mask_of w) cs k) (cs.getD (k + 1) [])
            (cs.getD (k + 2) []))
          (cs.getD (k + 2) []) (cs.drop (k + 3)) from rfl]
    rw [exchMid_step w cs h hlen hwords k (by omega)]
    rw [show k + 3 = (k + 1) + 2 from rfl]
    rw [ih (k + 1) (by omega)]
    rw [List.range'_succ]
    rfl

/-- The whole column sweep of `tick` advances every column with its ideal
exchanged value. -/
theorem tickCols_char (w : Nat) (cs : List (List Nat)) (h : Nat)
    (hlen : ∀ col ∈ cs, col.length = h)
    (hwords : ∀ col ∈ cs, ∀ u ∈ col, u < 2 ^ 64) (hcs : cs ≠ []) :
    tickCols (tail_mask_of w) cs =
      (List.range cs.length).map fun c => tick_column (exchColOf (tail_mask_of w) cs c) := by
  cases cs with
  | nil => exact absurd rfl hcs
  | cons c0 rest =>
    cases rest with
    | nil =>
      rw [show tickCols (tail_mask_of w) [c0] =
        [tick_column (c0.map fun u => u &&& not64 (tail_mask_of w))] from rfl]
      rw [show (List.range (List.length [c0])) = [0] from rfl]
      rw [List.map_cons, List.map_nil, exchColOf]
      simp
    | cons c1 rest2 =>
      rw [show tickCols (tail_mask_of w) (c0 :: c1 :: rest2) =
        tickLoop (tail_mask_of w) (List.zipWith exchFirst c0 c1) c1 rest2 from rfl]
      have hfirst : List.zipWith exchFirst c0 c1 =
          exchColOf (tail_mask_of w) (c0 :: c1 :: rest2) 0 := by
        rw [exchColOf, if_neg (by simp), if_pos rfl]
        rfl
      have hlen2 : (c0 :: c1 :: rest2).length = rest2.length + 2 := by simp
      have hloop := tickLoop_char w (c0 :: c1 :: rest2) h hlen hwords rest2.length 0 (by omega)
      rw [hfirst]
      exact hloop.trans (by rw [List.range_eq_range', hlen2])

/-! ### Evaluating the naive reference -/

theorem beq_one_testBit (u k : Nat) : (u >>> k &&& 1 == 1) = u.testBit k := by
  rw [Bool.eq_iff_iff, beq_iff_eq, Nat.and_one_is_mod,
    Nat.mod_two_eq_one_iff_testBit_zero, Nat.testBit_shiftRight, Nat.add_zero]

theorem aliveAt_testBit (g : GameOfLife) (x y : Nat) :
    aliveAt g x y =
      (g.grid.getD (x / 62 * g.height + y) 0).testBit (x % 62 + 1) := by
  rw [aliveAt, beq_one_testBit]
  simp only [CLUSTER_LEN]

theorem refAlive_neg (g : GameOfLife) (x y : Int) (hx : x < 0) :
    refAlive g x y = false := by
  simp [refAlive, show ¬(0 ≤ x) from by omega]

theorem refAlive_toNat (g : GameOfLife) (x y : Nat) (hy : y < g.height) :
    refAlive g (x : Int) (y : Int) =
      (decide (x < g.width) &&
        (g.grid.getD (x / 62 * g.height + y) 0).testBit (x % 62 + 1)) := by
  rw [refAlive, aliveAt_testBit]
  simp [hy, Nat.cast_lt]

/-- Uniform evaluation of the naive reference at the coordinate
`62 c + j - 1` addressed by bit `j` of the exchanged word of column `c`. -/
theorem refAlive_cases (g : GameOfLife) (c j y : Nat) (hy : y < g.height) :
    refAlive g (62 * (c : Int) + (j : Int) - 1) (y : Int) =
      if 62 * c + j = 0 then false
      else
        (decide (62 * c + j - 1 < g.width) &&
          (g.grid.getD ((62 * c + j - 1) / 62 * g.height + y) 0).testBit
            ((62 * c + j - 1) % 62 + 1)) := by
  by_cases h0 : 62 * c + j = 0
  · rw [if_pos h0]
    apply refAlive_neg
    omega
  · rw [if_neg h0]
    have e : (62 * (c : Int) + (j : Int) - 1) = ((62 * c + j - 1 : Nat) : Int) := by
      omega
    rw [e, refAlive_toNat g _ y hy]

theorem chunkCols_mem_length (c h : Nat) (l : List Nat) (hl : c * h ≤ l.length) :
    ∀ col ∈ chunkCols c h l, col.length = h := by
  induction c generalizing l with
  | zero => simp [chunkCols]
  | succ c ih =>
    have e : (c + 1) * h = c * h + h := Nat.succ_mul c h
    intro col hcol
    rcases List.mem_cons.mp hcol with rfl | hcol
    · rw [List.length_take]
      omega
    · exact ih (l.drop h) (by rw [List.length_drop]; omega) col hcol

/-- After the exchange phase of `tick`, bit `j` of the word at row `y` of
column `c` holds exactly the bounds-checked pre-tick value of the cell at
`(62 c + j - 1, y)`: scratch bit 0 holds the left neighbour column's last
cell, scratch bit 63 the right neighbour's first cell, padding and
out-of-grid positions read dead, and lane bits keep their own cell. -/
theorem exch_char (g : GameOfLife) (hw : 0 < g.width) (hh : 0 < g.height)
    (hlen : g.grid.length = (g.width + 62 - 1) / 62 * g.height)
    (hwords : ∀ u ∈ g.grid, u < 2 ^ 64) (c y j : Nat)
    (hc : c < (g.width + 62 - 1) / 62) (hy : y < g.height) (hj : j ≤ 63) :
    ((exchColOf (tail_mask_of g.width)
          (chunkCols ((g.width + 62 - 1) / 62) g.height g.grid) c).getD y 0).testBit j
      = refAlive g (62 * (c : Int) + (j : Int) - 1) (y : Int) := by
  set n := (g.width + 62 - 1) / 62 with hn
  set cs := chunkCols n g.height g.grid with hcsdef
  have hsplit : 62 * (n - 1) + ((g.width + 61) % 62 + 1) = g.width := by omega
  have htle : (g.width + 61) % 62 + 1 ≤ 62 := by omega
  have hcsL : cs.length = n := chunkCols_length n g.height g.grid
  have hcslen : ∀ col ∈ cs, col.length = g.height :=
    chunkCols_mem_length n g.height g.grid (le_of_eq hlen.symm)
  have hcswords : ∀ col ∈ cs, ∀ u ∈ col, u < 2 ^ 64 :=
    fun col hcol u hu => hwords u (chunkCols_mem_words n g.height g.grid col hcol u hu)
  have hgetlen : ∀ i, i < n → (cs.getD i []).length = g.height :=
    fun i hi => cols_getD_length cs g.height hcslen i (by omega)
  have hcell : ∀ i y2, i < n → y2 < g.height →
      (cs.getD i []).getD y2 0 = g.grid.getD (i * g.height + y2) 0 :=
    fun i y2 hi hy2 => chunkCols_cell n g.height g.grid i y2 hi hy2
  rw [refAlive_cases g c j y hy, exchColOf]
  by_cases h1 : cs.length = 1
  · -- single column
    have hn1 : n = 1 := by omega
    have hc0 : c = 0 := by omega
    subst hc0
    rw [if_pos h1, map_getD _ _ _ (by rw [hgetlen 0 (by omega)]; omega),
      maskWord_testBit g.width _ j hj, hcell 0 y (by omega) hy]
    by_cases hj0 : j = 0
    · subst hj0
      rw [if_pos rfl, if_pos (by omega)]
    · rw [if_neg hj0, if_neg (show ¬(62 * 0 + j = 0) from by omega)]
      by_cases hjt : (g.width + 61) % 62 + 2 ≤ j
      · rw [if_pos hjt]
        have hxw : ¬(62 * 0 + j - 1 < g.width) := by omega
        rw [decide_eq_false hxw, Bool.false_and]
      · rw [if_neg hjt]
        rw [show (62 * 0 + j - 1) / 62 = 0 from by omega,
          show (62 * 0 + j - 1) % 62 + 1 = j from by omega]
        have hxw : 62 * 0 + j - 1 < g.width := by omega
        rw [decide_eq_true hxw, Bool.true_and]
  · rw [if_neg h1]
    have hn2 : 2 ≤ n := by omega
    by_cases h2 : c = 0
    · -- first column
      subst h2
      rw [if_pos rfl,
        zipWith_getD _ _ _ _ (by rw [hgetlen 0 (by omega)]; omega)
          (by rw [hgetlen 1 (by omega)]; omega),
        exchFirst_testBit, hcell 0 y (by omega) hy, hcell 1 y (by omega) hy]
      by_cases hj0 : j = 0
      · subst hj0
        rw [if_pos rfl, if_pos (by omega)]
      · rw [if_neg hj0, if_neg (show ¬(62 * 0 + j = 0) from by omega)]
        by_cases hj63 : j = 63
        · subst hj63
          rw [if_pos rfl]
          rw [show (62 * 0 + 63 - 1) / 62 = 1 from by omega,
            show (62 * 0 + 63 - 1) % 62 + 1 = 1 from by omega]
          have hxw : 62 * 0 + 63 - 1 < g.width := by omega
          rw [decide_eq_true hxw, Bool.true_and]
        · rw [if_neg hj63]
          rw [show (62 * 0 + j - 1) / 62 = 0 from by omega,
            show (62 * 0 + j - 1) % 62 + 1 = j from by omega]
          have hxw : 62 * 0 + j - 1 < g.width := by omega
          rw [decide_eq_true hxw, Bool.true_and]
    · rw [if_neg h2]
      have h1c : 1 ≤ c := by omega
      by_cases h3 : c = cs.length - 1
      · -- last column
        have hclast : c = n - 1 := by omega
        rw [if_pos h3,
          zipWith_getD _ _ _ _ (by rw [hgetlen (c - 1) (by omega)]; omega)
            (by rw [hgetlen c (by omega)]; omega),
          exchLast_testBit g.width _ _ (getD_getD_lt cs hcswords (c - 1) y) j hj,
          hcell (c - 1) y (by omega) hy, hcell c y (by omega) hy]
        by_cases hj0 : j = 0
        · subst hj0
          rw [if_pos rfl, if_neg (show ¬(62 * c + 0 = 0) from by omega)]
          rw [show (62 * c + 0 - 1) / 62 = c - 1 from by omega,
            show (62 * c + 0 - 1) % 62 + 1 = 62 from by omega]
          have hxw : 62 * c + 0 - 1 < g.width := by omega
          rw [decide_eq_true hxw, Bool.true_and]
        · rw [if_neg hj0, if_neg (show ¬(62 * c + j = 0) from by omega)]
          by_cases hjt : (g.width + 61) % 62 + 2 ≤ j
          · rw [if_pos hjt]
            have hxw : ¬(62 * c + j - 1 < g.width) := by omega
            rw [decide_eq_false hxw, Bool.false_and]
          · rw [if_neg hjt]
            rw [show (62 * c + j - 1) / 62 = c from by omega,
              show (62 * c + j - 1) % 62 + 1 = j from by omega]
            have hxw : 62 * c + j - 1 < g.width := by omega
            rw [decide_eq_true hxw, Bool.true_and]
      · -- middle column
        have hcmid : c + 1 ≤ n - 1 := by omega
        rw [if_neg h3,
          zipWith3_getD _ _ _ _ _ (by rw [hgetlen (c - 1) (by omega)]; omega)
            (by rw [hgetlen c (by omega)]; omega)
            (by rw [hgetlen (c + 1) (by omega)]; omega),
          exchMid_testBit _ _ _ (getD_getD_lt cs hcswords (c - 1) y) j,
          hcell (c - 1) y (by omega) hy, hcell c y (by omega) hy,
          hcell (c + 1) y (by omega) hy]
        by_cases hj0 : j = 0
        · subst hj0
          rw [if_pos rfl, if_neg (show ¬(62 * c + 0 = 0) from by omega)]
          rw [show (62 * c + 0 - 1) / 62 = c - 1 from by omega,
            show (62 * c + 0 - 1) % 62 + 1 = 62 from by omega]
          have hxw : 62 * c + 0 - 1 < g.width := by omega
          rw [decide_eq_true hxw, Bool.true_and]
        · rw [if_neg hj0, if_neg (show ¬(62 * c + j = 0) from by omega)]
          by_cases hj63 : j = 63
          · subst hj63
            rw [if_pos rfl]
            rw [show (62 * c + 63 - 1) / 62 = c + 1 from by omega,
              show (62 * c + 63 - 1) % 62 + 1 = 1 from by omega]
            have hxw : 62 * c + 63 - 1 < g.width := by omega
            rw [decide_eq_true hxw, Bool.true_and]
          · rw [if_neg hj63]
            rw [show (62 * c + j - 1) / 62 = c from by omega,
              show (62 * c + j - 1) % 62 + 1 = j from by omega]
            have hxw : 62 * c + j - 1 < g.width := by omega
            rw [decide_eq_true hxw, Bool.true_and]

/-! ### Assembling `tick` against the naive reference -/

theorem refAlive_y_out (g : GameOfLife) (x y : Int)
    (hy : y < 0 ∨ (g.height : Int) ≤ y) : refAlive g x y = false := by
  rcases hy with hy | hy
  · simp [refAlive, show ¬(0 ≤ y) from by omega]
  · simp [refAlive, show ¬(y < (g.height : Int)) from by omega]

theorem ecoord (g : GameOfLife) (a a2 b b2 : Int) (h1 : a = a2) (h2 : b = b2) :
    refAlive g a b = refAlive g a2 b2 := by rw [h1, h2]

theorem lifeStep_congr (a b : Bool) (m n2 : Nat) (h1 : a = b) (h2 : m = n2) :
    lifeStep a m = lifeStep b n2 := by rw [h1, h2]

theorem nbCount_expand (g : GameOfLife) (x y : Int) :
    nbCount g x y =
      (refAlive g (x - 1) (y - 1)).toNat + (refAlive g x (y - 1)).toNat
        + (refAlive g (x + 1) (y - 1)).toNat + (refAlive g (x - 1) y).toNat
        + (refAlive g (x + 1) y).toNat + (refAlive g (x - 1) (y + 1)).toNat
        + (refAlive g x (y + 1)).toNat + (refAlive g (x + 1) (y + 1)).toNat := by
  rw [nbCount, nbOffsets]
  simp only [List.map_cons, List.map_nil, List.sum_cons, List.sum_nil]
  rw [ecoord g (x + -1) (x - 1) (y + -1) (y - 1) (by omega) (by omega),
    ecoord g (x + 0) x (y + -1) (y - 1) (by omega) (by omega),
    ecoord g (x + 1) (x + 1) (y + -1) (y - 1) rfl (by omega),
    ecoord g (x + -1) (x - 1) (y + 0) y (by omega) (by omega),
    ecoord g (x + 1) (x + 1) (y + 0) y rfl (by omega),
    ecoord g (x + -1) (x - 1) (y + 1) (y + 1) (by omega) rfl,
    ecoord g (x + 0) x (y + 1) (y + 1) (by omega) rfl]
  omega

theorem map_range_getD {α : Type} (f : Nat → α) (n c : Nat) (d : α) (hc : c < n) :
    ((List.range n).map f).getD c d = f c := by
  rw [List.getD_eq_getElem?_getD, List.getElem?_map, List.getElem?_range hc]
  rfl

/-- Lane bit `p` of word `c * height + y` of the post-tick storage is
Conway's rule applied to the bounds-checked pre-tick reads around the cell
`(62 c + p - 1, y)`. -/
theorem tick_testBit_char (g : GameOfLife) (hw : 0 < g.width) (hh : 0 < g.height)
    (hlen : g.grid.length = (g.width + 62 - 1) / 62 * g.height)
    (hwords : ∀ u ∈ g.grid, u < 2 ^ 64) (c y p : Nat)
    (hc : c < (g.width + 62 - 1) / 62) (hy : y < g.height)
    (hp1 : 1 ≤ p) (hp2 : p ≤ 62) :
    (g.tick.grid.getD (c * g.height + y) 0).testBit p =
      conwayNext g (62 * (c : Int) + (p : Int) - 1) (y : Int) := by
  set n := (g.width + 62 - 1) / 62 with hn
  set cs := chunkCols n g.height g.grid with hcsdef
  have hcsL : cs.length = n := chunkCols_length n g.height g.grid
  have hcslen : ∀ col ∈ cs, col.length = g.height :=
    chunkCols_mem_length n g.height g.grid (le_of_eq hlen.symm)
  have hcswords : ∀ col ∈ cs, ∀ u ∈ col, u < 2 ^ 64 :=
    fun col hcol u hu => hwords u (chunkCols_mem_words n g.height g.grid col hcol u hu)
  have hcols : g.grid.length / g.height = n := by
    rw [hlen]
    exact Nat.mul_div_cancel n hh
  have hcolL : ∀ i, i < n →
      (exchColOf (tail_mask_of g.width) cs i).length = g.height :=
    fun i hi => exchColOf_length _ cs g.height hcslen i (by omega)
  -- unfold tick to the characterized column sweep
  have hgrid : g.tick.grid =
      ((List.range n).map fun i =>
        tick_column (exchColOf (tail_mask_of g.width) cs i)).flatten := by
    rw [GameOfLife.tick]
    simp only [hcols]
    rw [← hcsdef, tickCols_char g.width cs g.height hcslen hcswords
        (List.ne_nil_of_length_pos (by omega)),
      List.drop_eq_nil_of_le (by rw [hlen]), List.append_nil, hcsL]
  have houtlen : ∀ col ∈ (List.range n).map fun i =>
      tick_column (exchColOf (tail_mask_of g.width) cs i), col.length = g.height := by
    intro col hcol
    obtain ⟨i, hi, rfl⟩ := List.mem_map.mp hcol
    rw [tick_column, tickColumnGo_length, hcolL i (List.mem_range.mp hi)]
  rw [hgrid, flatten_getD _ g.height houtlen c y (by simp; omega) hy,
    map_range_getD _ n c [] (by omega), tick_column,
    tickColumnGo_getD 0 _ y (by rw [hcolL c (by omega)]; omega),
    tick_cluster_nb _ _ _ p hp1 hp2, conwayNext]
  set col := exchColOf (tail_mask_of g.width) cs c with hcoldef
  have hcol8 : ∀ yy j : Nat, yy < g.height → j ≤ 63 →
      (col.getD yy 0).testBit j =
        refAlive g (62 * (c : Int) + (j : Int) - 1) (yy : Int) :=
    fun yy j hyy hj => exch_char g hw hh hlen hwords c yy j (by omega) hyy hj
  have habove : ∀ j : Nat, j ≤ 63 →
      (if y = 0 then (0 : Nat) else col.getD (y - 1) 0).testBit j =
        refAlive g (62 * (c : Int) + (j : Int) - 1) ((y : Int) - 1) := by
    intro j hj
    by_cases hy0 : y = 0
    · rw [if_pos hy0, Nat.zero_testBit, refAlive_y_out g _ _ (Or.inl (by omega))]
    · rw [if_neg hy0]
      exact (hcol8 (y - 1) j (by omega) hj).trans (ecoord g _ _ _ _ rfl (by omega))
  have hbelow : ∀ j : Nat, j ≤ 63 →
      (col.getD (y + 1) 0).testBit j =
        refAlive g (62 * (c : Int) + (j : Int) - 1) ((y : Int) + 1) := by
    intro j hj
    by_cases hyh : y + 1 < g.height
    · exact (hcol8 (y + 1) j hyh hj).trans (ecoord g _ _ _ _ rfl (by omega))
    · rw [List.getD_eq_default col 0 (by rw [hcoldef, hcolL c (by omega)]; omega),
        Nat.zero_testBit, refAlive_y_out g _ _ (Or.inr (by omega))]
  have hA1 : (if y = 0 then (0 : Nat) else col.getD (y - 1) 0).testBit (p - 1) =
      refAlive g (62 * (c : Int) + (p : Int) - 1 - 1) ((y : Int) - 1) :=
    (habove (p - 1) (by omega)).trans (ecoord g _ _ _ _ (by omega) rfl)
  have hA2 : (if y = 0 then (0 : Nat) else col.getD (y - 1) 0).testBit p =
      refAlive g (62 * (c : Int) + (p : Int) - 1) ((y : Int) - 1) :=
    habove p (by omega)
  have hA3 : (if y = 0 then (0 : Nat) else col.getD (y - 1) 0).testBit (p + 1) =
      refAlive g (62 * (c : Int) + (p : Int) - 1 + 1) ((y : Int) - 1) :=
    (habove (p + 1) (by omega)).trans (ecoord g _ _ _ _ (by omega) rfl)
  have hR1 : (col.getD y 0).testBit (p - 1) =
      refAlive g (62 * (c : Int) + (p : Int) - 1 - 1) (y : Int) :=
    (hcol8 y (p - 1) hy (by omega)).trans (ecoord g _ _ _ _ (by omega) rfl)
  have hR3 : (col.getD y 0).testBit (p + 1) =
      refAlive g (62 * (c : Int) + (p : Int) - 1 + 1) (y : Int) :=
    (hcol8 y (p + 1) hy (by omega)).trans (ecoord g _ _ _ _ (by omega) rfl)
  have hB1 : (col.getD (y + 1) 0).testBit (p - 1) =
      refAlive g (62 * (c : Int) + (p : Int) - 1 - 1) ((y : Int) + 1) :=
    (hbelow (p - 1) (by omega)).trans (ecoord g _ _ _ _ (by omega) rfl)
  have hB2 : (col.getD (y + 1) 0).testBit p =
      refAlive g (62 * (c : Int) + (p : Int) - 1) ((y : Int) + 1) :=
    hbelow p (by omega)
  have hB3 : (col.getD (y + 1) 0).testBit (p + 1) =
      refAlive g (62 * (c : Int) + (p : Int) - 1 + 1) ((y : Int) + 1) :=
    (hbelow (p + 1) (by omega)).trans (ecoord g _ _ _ _ (by omega) rfl)
  refine lifeStep_congr _ _ _ _ (hcol8 y p hy (by omega)) ?_
  rw [nbBitCount, nbCount_expand, hA1, hA2, hA3, hR1, hR3, hB1, hB2, hB3]

theorem tick_height (g : GameOfLife) : g.tick.height = g.height := rfl

theorem tick_width (g : GameOfLife) : g.tick.width = g.width := rfl

theorem tick_grid_eq (g : GameOfLife) (hw : 0 < g.width) (hh : 0 < g.height)
    (hlen : g.grid.length = (g.width + 62 - 1) / 62 * g.height)
    (hwords : ∀ u ∈ g.grid, u < 2 ^ 64) :
    g.tick.grid = ((List.range ((g.width + 62 - 1) / 62)).map fun i =>
      tick_column (exchColOf (tail_mask_of g.width)
        (chunkCols ((g.width + 62 - 1) / 62) g.height g.grid) i)).flatten := by
  set n := (g.width + 62 - 1) / 62 with hn
  set cs := chunkCols n g.height g.grid with hcsdef
  have hcsL : cs.length = n := chunkCols_length n g.height g.grid
  have hcslen : ∀ col ∈ cs, col.length = g.height :=
    chunkCols_mem_length n g.height g.grid (le_of_eq hlen.symm)
  have hcswords : ∀ col ∈ cs, ∀ u ∈ col, u < 2 ^ 64 :=
    fun col hcol u hu => hwords u (chunkCols_mem_words n g.height g.grid col hcol u hu)
  have hcols : g.grid.length / g.height = n := by
    rw [hlen]
    exact Nat.mul_div_cancel n hh
  rw [GameOfLife.tick]
  simp only [hcols]
  rw [← hcsdef, tickCols_char g.width cs g.height hcslen hcswords
      (List.ne_nil_of_length_pos (by omega)),
    List.drop_eq_nil_of_le (by rw [hlen]), List.append_nil, hcsL]

theorem tick_out_lengths (g : GameOfLife) (hh : 0 < g.height)
    (hlen : g.grid.length = (g.width + 62 - 1) / 62 * g.height) :
    ∀ col ∈ (List.range ((g.width + 62 - 1) / 62)).map fun i =>
      tick_column (exchColOf (tail_mask_of g.width)
        (chunkCols ((g.width + 62 - 1) / 62) g.height g.grid) i),
      col.length = g.height := by
  intro col hcol
  obtain ⟨i, hi, rfl⟩ := List.mem_map.mp hcol
  rw [tick_column, tickColumnGo_length,
    exchColOf_length _ _ g.height
      (chunkCols_mem_length _ g.height g.grid (le_of_eq hlen.symm)) i
      (by rw [chunkCols_length]; exact List.mem_range.mp hi)]

theorem tick_grid_length (g : GameOfLife) (hw : 0 < g.width) (hh : 0 < g.height)
    (hlen : g.grid.length = (g.width + 62 - 1) / 62 * g.height)
    (hwords : ∀ u ∈ g.grid, u < 2 ^ 64) :
    g.tick.grid.length = g.grid.length := by
  rw [tick_grid_eq g hw hh hlen hwords,
    flatten_length_uniform _ g.height (tick_out_lengths g hh hlen),
    List.length_map, List.length_range, hlen]

theorem index_lt (cnum h c y : Nat) (hc : c < cnum) (hy : y < h) :
    c * h + y < cnum * h := by
  have h1 : (c + 1) * h ≤ cnum * h := Nat.mul_le_mul_right h (by omega)
  have h2 : (c + 1) * h = c * h + h := Nat.succ_mul c h
  omega

/-- Running `tick` then `is_alive` agrees with the naive reference at every in-range
coordinate (and the `is_alive` read cannot panic). -/
theorem tick_alive_eq (g : GameOfLife) (hw : 0 < g.width) (hh : 0 < g.height)
    (hlen : g.grid.length = (g.width + 62 - 1) / 62 * g.height)
    (hwords : ∀ u ∈ g.grid, u < 2 ^ 64) (x y : Nat)
    (hx : x < g.width) (hy : y < g.height) :
    g.tick.is_alive x y = some (naiveNext g x y) := by
  have hcx : x / 62 < (g.width + 62 - 1) / 62 := by omega
  have hidx : x / 62 * g.height + y < g.grid.length := by
    rw [hlen]
    exact index_lt _ _ _ _ hcx hy
  simp only [GameOfLife.is_alive, CLUSTER_LEN, tick_height]
  rw [if_pos (by rw [tick_grid_length g hw hh hlen hwords]; exact hidx),
    beq_one_testBit,
    tick_testBit_char g hw hh hlen hwords (x / 62) y (x % 62 + 1) hcx hy
      (by omega) (by omega),
    naiveNext,
    show (62 * ((x / 62 : Nat) : Int) + ((x % 62 + 1 : Nat) : Int) - 1) = (x : Int)
      from by omega]

/-- Claim C1: for every grid with positive width and height (well-formed
storage, arbitrary contents), after one call to `tick()`, every in-range
`is_alive(x, y)` equals the naive bounds-checked Conway reference applied to
the pre-tick `is_alive` values, treating every neighbour coordinate outside
`[0,width) × [0,height)` as permanently dead. -/
theorem tick_matches_naive (g : GameOfLife) (hw : 0 < g.width) (hh : 0 < g.height)
    (hlen : g.grid.length = (g.width + 62 - 1) / 62 * g.height)
    (hwords : ∀ u ∈ g.grid, u < 2 ^ 64) :
    ∀ x y : Nat, x < g.width → y < g.height →
      g.tick.is_alive x y = some (naiveNext g x y) :=
  fun x y hx hy => tick_alive_eq g hw hh hlen hwords x y hx hy

/-- Witness for `tick_matches_naive`: a vertical blinker in a 3×3 grid. -/
theorem tick_matches_naive_witness :
    ((0 : Nat) < 3 ∧ (0 : Nat) < 3 ∧
      (GameOfLife.mk 3 3 [4, 4, 4]).grid.length = (3 + 62 - 1) / 62 * 3 ∧
      (∀ u ∈ (GameOfLife.mk 3 3 [4, 4, 4]).grid, u < 2 ^ 64)) ∧
    (∀ x y : Nat, x < 3 → y < 3 →
      (GameOfLife.mk 3 3 [4, 4, 4]).tick.is_alive x y =
        some (naiveNext (GameOfLife.mk 3 3 [4, 4, 4]) x y)) :=
  ⟨⟨by decide, by decide, by decide, by decide⟩,
    tick_matches_naive (GameOfLife.mk 3 3 [4, 4, 4]) (by decide) (by decide)
      (by decide) (by decide)⟩

/-- Claim C10: two grids with the same dimensions whose storage words agree on
all lane bits 1–62 (i.e. differ at most in scratch bits 0 and/or 63) yield,
after `tick()`, storages again agreeing on all lane bits word by word, and
equal `is_alive` results at every in-range coordinate. -/
theorem tick_scratch_independent (w h : Nat) (grid1 grid2 : List Nat)
    (hw : 0 < w) (hh : 0 < h)
    (hlen1 : grid1.length = (w + 62 - 1) / 62 * h)
    (hlen2 : grid2.length = (w + 62 - 1) / 62 * h)
    (hwords1 : ∀ u ∈ grid1, u < 2 ^ 64) (hwords2 : ∀ u ∈ grid2, u < 2 ^ 64)
    (hlane : ∀ i, i < grid1.length → ∀ j, j < 63 → 1 ≤ j →
      (grid1.getD i 0).testBit j = (grid2.getD i 0).testBit j) :
    (∀ i j : Nat, 1 ≤ j → j ≤ 62 →
      ((GameOfLife.mk w h grid1).tick.grid.getD i 0).testBit j =
        ((GameOfLife.mk w h grid2).tick.grid.getD i 0).testBit j) ∧
    (∀ x y : Nat, x < w → y < h →
      (GameOfLife.mk w h grid1).tick.is_alive x y =
        (GameOfLife.mk w h grid2).tick.is_alive x y) := by
  have haliveAt : ∀ x y : Nat,
      aliveAt (GameOfLife.mk w h grid1) x y = aliveAt (GameOfLife.mk w h grid2) x y := by
    intro x y
    rw [aliveAt_testBit, aliveAt_testBit]
    show (grid1.getD (x / 62 * h + y) 0).testBit (x % 62 + 1) =
      (grid2.getD (x / 62 * h + y) 0).testBit (x % 62 + 1)
    by_cases hidx : x / 62 * h + y < grid1.length
    · exact hlane _ hidx _ (by omega) (by omega)
    · rw [List.getD_eq_default grid1 0 (by omega),
        List.getD_eq_default grid2 0 (by omega)]
  have href : ∀ a b : Int,
      refAlive (GameOfLife.mk w h grid1) a b =
        refAlive (GameOfLife.mk w h grid2) a b := by
    intro a b
    rw [refAlive, refAlive, haliveAt a.toNat b.toNat]
  have hnb : ∀ a b : Int,
      nbCount (GameOfLife.mk w h grid1) a b = nbCount (GameOfLife.mk w h grid2) a b := by
    intro a b
    rw [nbCount_expand, nbCount_expand]
    simp only [href]
  have hcn : ∀ a b : Int,
      conwayNext (GameOfLife.mk w h grid1) a b =
        conwayNext (GameOfLife.mk w h grid2) a b := by
    intro a b
    rw [conwayNext, conwayNext, href, hnb]
  constructor
  · intro i j hj1 hj2
    by_cases hi : i < grid1.length
    · have hc : i / h < (w + 62 - 1) / 62 := by
        rw [Nat.div_lt_iff_lt_mul hh]
        omega
      have hy' : i % h < h := Nat.mod_lt _ hh
      have hi2 : i / h * h + i % h = i := by
        have e1 := Nat.div_add_mod i h
        have e2 : h * (i / h) = i / h * h := Nat.mul_comm _ _
        omega
      calc ((GameOfLife.mk w h grid1).tick.grid.getD i 0).testBit j
          = ((GameOfLife.mk w h grid1).tick.grid.getD (i / h * h + i % h) 0).testBit j := by
            rw [hi2]
        _ = conwayNext (GameOfLife.mk w h grid1)
              (62 * ((i / h : Nat) : Int) + (j : Int) - 1) ((i % h : Nat) : Int) :=
            tick_testBit_char _ hw hh hlen1 hwords1 (i / h) (i % h) j hc hy' hj1 hj2
        _ = conwayNext (GameOfLife.mk w h grid2)
              (62 * ((i / h : Nat) : Int) + (j : Int) - 1) ((i % h : Nat) : Int) :=
            hcn _ _
        _ = ((GameOfLife.mk w h grid2).tick.grid.getD (i / h * h + i % h) 0).testBit j :=
            (tick_testBit_char _ hw hh hlen2 hwords2 (i / h) (i % h) j hc hy' hj1 hj2).symm
        _ = ((GameOfLife.mk w h grid2).tick.grid.getD i 0).testBit j := by
            rw [hi2]
    · rw [List.getD_eq_default ((GameOfLife.mk w h grid1).tick.grid) 0
          (by rw [tick_grid_length _ hw hh hlen1 hwords1]
              show grid1.length ≤ i
              omega),
        List.getD_eq_default ((GameOfLife.mk w h grid2).tick.grid) 0
          (by rw [tick_grid_length _ hw hh hlen2 hwords2]
              show grid2.length ≤ i
              omega)]
  · intro x y hx hy
    rw [tick_alive_eq _ hw hh hlen1 hwords1 x y hx hy,
      tick_alive_eq _ hw hh hlen2 hwords2 x y hx hy, naiveNext, naiveNext, hcn]

/-- Witness for `tick_scratch_independent`: two 3×3 blinker grids, one with
garbage in bits 0 and 63 of its first word. -/
theorem tick_scratch_independent_witness :
    ((0 : Nat) < 3 ∧ (0 : Nat) < 3 ∧
      ([4, 4, 4] : List Nat).length = (3 + 62 - 1) / 62 * 3 ∧
      ([9223372036854775813, 4, 4] : List Nat).length = (3 + 62 - 1) / 62 * 3 ∧
      (∀ u ∈ ([4, 4, 4] : List Nat), u < 2 ^ 64) ∧
      (∀ u ∈ ([9223372036854775813, 4, 4] : List Nat), u < 2 ^ 64) ∧
      (∀ i, i < ([4, 4, 4] : List Nat).length → ∀ j, j < 63 → 1 ≤ j →
        (([4, 4, 4] : List Nat).getD i 0).testBit j =
          (([9223372036854775813, 4, 4] : List Nat).getD i 0).testBit j)) ∧
    ((∀ i j : Nat, 1 ≤ j → j ≤ 62 →
      ((GameOfLife.mk 3 3 [4, 4, 4]).tick.grid.getD i 0).testBit j =
        ((GameOfLife.mk 3 3 [9223372036854775813, 4, 4]).tick.grid.getD i 0).testBit j) ∧
    (∀ x y : Nat, x < 3 → y < 3 →
      (GameOfLife.mk 3 3 [4, 4, 4]).tick.is_alive x y =
        (GameOfLife.mk 3 3 [9223372036854775813, 4, 4]).tick.is_alive x y)) :=
  ⟨⟨by decide, by decide, by decide, by decide, by decide, by decide, by decide⟩,
    tick_scratch_independent 3 3 [4, 4, 4] [9223372036854775813, 4, 4]
      (by decide) (by decide) (by decide) (by decide) (by decide) (by decide) (by decide)⟩

/-! ### The all-dead grid is a fixed point of `tick` -/

theorem tick_cluster_zero : tick_cluster 0 0 0 = 0 := by decide

theorem exchFirst_zero : exchFirst 0 0 = 0 := by decide

theorem exchMid_zero : exchMid 0 0 0 = 0 := by decide

theorem exchLast_zero (tm : Nat) : exchLast tm 0 0 = 0 := by
  rw [exchLast]
  simp

theorem tickColumnGo_replicate_zero (hgt : Nat) :
    tickColumnGo 0 (List.replicate hgt 0) = List.replicate hgt 0 := by
  induction hgt with
  | zero => rfl
  | succ k ih =>
    cases k with
    | zero => rfl
    | succ k2 =>
      calc tickColumnGo 0 (List.replicate (k2 + 2) 0)
          = tick_cluster 0 0 0 :: tickColumnGo 0 (List.replicate (k2 + 1) 0) := rfl
        _ = 0 :: List.replicate (k2 + 1) 0 := by rw [ih, tick_cluster_zero]
        _ = List.replicate (k2 + 2) 0 := rfl

theorem zipWith_replicate_zero (f : Nat → Nat → Nat) (hgt : Nat) (hf : f 0 0 = 0) :
    List.zipWith f (List.replicate hgt 0) (List.replicate hgt 0) =
      List.replicate hgt 0 := by
  induction hgt with
  | zero => rfl
  | succ k ih => simp only [List.replicate_succ, List.zipWith_cons_cons, hf, ih]

theorem zipWith3_replicate_zero (f : Nat → Nat → Nat → Nat) (hgt : Nat)
    (hf : f 0 0 0 = 0) :
    zipWith3 f (List.replicate hgt 0) (List.replicate hgt 0) (List.replicate hgt 0) =
      List.replicate hgt 0 := by
  induction hgt with
  | zero => rfl
  | succ k ih => simp only [List.replicate_succ, zipWith3, hf, ih]

theorem tickLoop_replicate_zero (tm hgt : Nat) : ∀ k : Nat,
    tickLoop tm (List.replicate hgt 0) (List.replicate hgt 0)
        (List.replicate k (List.replicate hgt 0)) =
      List.replicate (k + 2) (List.replicate hgt 0) := by
  intro k
  induction k with
  | zero =>
    show [tick_column (List.replicate hgt 0),
      tick_column (List.zipWith (exchLast tm) (List.replicate hgt 0)
        (List.replicate hgt 0))] = _
    rw [zipWith_replicate_zero _ _ (exchLast_zero tm), tick_column,
      tickColumnGo_replicate_zero]
    rfl
  | succ k2 ih =>
    show tick_column (List.replicate hgt 0) ::
        tickLoop tm (zipWith3 exchMid (List.replicate hgt 0) (List.replicate hgt 0)
          (List.replicate hgt 0)) (List.replicate hgt 0)
          (List.replicate k2 (List.replicate hgt 0)) = _
    rw [zipWith3_replicate_zero _ _ exchMid_zero, tick_column,
      tickColumnGo_replicate_zero, ih]
    rfl

theorem tickCols_replicate_zero (tm hgt : Nat) : ∀ cnum : Nat,
    tickCols tm (List.replicate cnum (List.replicate hgt 0)) =
      List.replicate cnum (List.replicate hgt 0) := by
  intro cnum
  match cnum with
  | 0 => rfl
  | 1 =>
    show [tick_column ((List.replicate hgt 0).map fun u => u &&& not64 tm)] = _
    rw [List.map_replicate]
    rw [show ((0 : Nat) &&& not64 tm) = 0 from Nat.zero_and _, tick_column,
      tickColumnGo_replicate_zero]
    rfl
  | (k + 2) =>
    show tickLoop tm (List.zipWith exchFirst (List.replicate hgt 0) (List.replicate hgt 0))
      (List.replicate hgt 0) (List.replicate k (List.replicate hgt 0)) = _
    rw [zipWith_replicate_zero _ _ exchFirst_zero, tickLoop_replicate_zero]

theorem chunkCols_replicate_zero (hgt : Nat) : ∀ c n2 : Nat, c * hgt ≤ n2 →
    chunkCols c hgt (List.replicate n2 0) =
      List.replicate c (List.replicate hgt 0) := by
  intro c
  induction c with
  | zero => intro n2 _; rfl
  | succ k ih =>
    intro n2 hle
    have e : (k + 1) * hgt = k * hgt + hgt := Nat.succ_mul k hgt
    rw [show chunkCols (k + 1) hgt (List.replicate n2 0) =
        (List.replicate n2 0).take hgt ::
          chunkCols k hgt ((List.replicate n2 0).drop hgt) from rfl,
      List.take_replicate, List.drop_replicate, ih (n2 - hgt) (by omega),
      show min hgt n2 = hgt from by omega, List.replicate_succ]

theorem tick_replicate_zero (w hgt n2 : Nat) :
    (GameOfLife.mk w hgt (List.replicate n2 0)).tick =
      GameOfLife.mk w hgt (List.replicate n2 0) := by
  have hle : n2 / hgt * hgt ≤ n2 := Nat.div_mul_le_self n2 hgt
  rw [GameOfLife.tick]
  simp only [List.length_replicate]
  rw [chunkCols_replicate_zero hgt (n2 / hgt) n2 hle, tickCols_replicate_zero,
    List.flatten_replicate_replicate, List.drop_replicate, ← List.replicate_add,
    show n2 / hgt * hgt + (n2 - n2 / hgt * hgt) = n2 from by omega]

theorem tickN_new (w hgt : Nat) : ∀ k : Nat,
    tickN k (GameOfLife.new w hgt) = GameOfLife.new w hgt := by
  intro k
  induction k with
  | zero => rfl
  | succ k2 ih =>
    have h1 : (GameOfLife.new w hgt).tick = GameOfLife.new w hgt :=
      tick_replicate_zero w hgt ((w + 62 - 1) / 62 * hgt)
    rw [tickN, h1]
    exact ih

theorem replicate_getD_zero (n i : Nat) : (List.replicate n (0 : Nat)).getD i 0 = 0 := by
  by_cases hi : i < n
  · rw [List.getD_eq_getElem?_getD, List.getElem?_replicate_of_lt hi]
    rfl
  · rw [List.getD_eq_default _ _ (by rw [List.length_replicate]; omega)]

/-- Claim C3: in every grid state reachable from `new()` by `tick()` calls
alone (observed between calls), bit 0 and bit 63 of every storage word are
`0`.  (All such states are in fact the all-dead grid: the claim's
reachability has no cell-setting operation, and `tick` fixes the dead
grid.) -/
theorem reachable_scratch_zero (w hgt : Nat) (hw : 0 < w) (hh : 0 < hgt) (k : Nat) :
    ∀ u ∈ (tickN k (GameOfLife.new w hgt)).grid,
      u.testBit 0 = false ∧ u.testBit 63 = false := by
  rw [tickN_new w hgt k]
  intro u hu
  simp only [GameOfLife.new] at hu
  have hz : u = 0 := List.eq_of_mem_replicate hu
  subst hz
  exact ⟨Nat.zero_testBit 0, Nat.zero_testBit 63⟩

/-- Witness for `reachable_scratch_zero`: two ticks on a fresh 5×4 grid. -/
theorem reachable_scratch_zero_witness :
    ((0 : Nat) < 5 ∧ (0 : Nat) < 4) ∧
      (∀ u ∈ (tickN 2 (GameOfLife.new 5 4)).grid,
        u.testBit 0 = false ∧ u.testBit 63 = false) :=
  ⟨⟨by decide, by decide⟩, reachable_scratch_zero 5 4 (by decide) (by decide) 2⟩

/-- Claim C4: in every grid state reachable from `new()` by `tick()` calls
alone, every padding lane of the last column (local x-offset `koff` at or
beyond `width % 62`, when the width is not a multiple of 62) is `0`.  (All
such states are in fact the all-dead grid.) -/
theorem reachable_padding_zero (w hgt : Nat) (hw : 0 < w) (hh : 0 < hgt)
    (hmod : w % 62 ≠ 0) (k koff : Nat) (hk1 : w % 62 ≤ koff) (hk2 : koff < 62) :
    ∀ i : Nat, ((w + 62 - 1) / 62 - 1) * hgt ≤ i →
      ((tickN k (GameOfLife.new w hgt)).grid.getD i 0).testBit (koff + 1) = false := by
  intro i _
  rw [tickN_new w hgt k]
  show ((List.replicate ((w + 62 - 1) / 62 * hgt) 0).getD i 0).testBit (koff + 1) = false
  rw [replicate_getD_zero]
  exact Nat.zero_testBit _

/-- Witness for `reachable_padding_zero`: width 70 (8 valid lanes in the
last column), padding lane 10, after one tick. -/
theorem reachable_padding_zero_witness :
    ((0 : Nat) < 70 ∧ (0 : Nat) < 2 ∧ (70 : Nat) % 62 ≠ 0 ∧ 70 % 62 ≤ 10 ∧ (10 : Nat) < 62) ∧
      (∀ i : Nat, ((70 + 62 - 1) / 62 - 1) * 2 ≤ i →
        ((tickN 1 (GameOfLife.new 70 2)).grid.getD i 0).testBit (10 + 1) = false) :=
  ⟨⟨by decide, by decide, by decide, by decide, by decide⟩,
    reachable_padding_zero 70 2 (by decide) (by decide) (by decide) 1 10
      (by decide) (by decide)⟩

/-- Claim C6: for a well-formed grid and in-range `(x, y)`, `is_alive` returns
exactly bit `(x % 62) + 1` of the storage word at index
`(x / 62) * height + y`; the bit offset always lies in the lane range 1–62,
so bits 0 and 63 are never read. -/
theorem is_alive_char (g : GameOfLife) (x y : Nat)
    (hlen : g.grid.length = (g.width + 62 - 1) / 62 * g.height)
    (hx : x < g.width) (hy : y < g.height) :
    g.is_alive x y =
      some ((g.grid.getD (x / 62 * g.height + y) 0).testBit (x % 62 + 1)) ∧
    1 ≤ x % 62 + 1 ∧ x % 62 + 1 ≤ 62 := by
  refine ⟨?_, by omega, by omega⟩
  have hcx : x / 62 < (g.width + 62 - 1) / 62 := by omega
  have hidx : x / 62 * g.height + y < g.grid.length := by
    rw [hlen]
    exact index_lt _ _ _ _ hcx hy
  simp only [GameOfLife.is_alive, CLUSTER_LEN]
  rw [if_pos hidx, beq_one_testBit]

/-- Witness for `is_alive_char`: cell `(1, 0)` of a 3×2 grid. -/
theorem is_alive_char_witness :
    ((GameOfLife.mk 3 2 [6, 0]).grid.length = (3 + 62 - 1) / 62 * 2 ∧
      (1 : Nat) < 3 ∧ (0 : Nat) < 2) ∧
    ((GameOfLife.mk 3 2 [6, 0]).is_alive 1 0 =
        some ((([6, 0] : List Nat).getD (1 / 62 * 2 + 0) 0).testBit (1 % 62 + 1)) ∧
      1 ≤ 1 % 62 + 1 ∧ 1 % 62 + 1 ≤ 62) :=
  ⟨⟨by decide, by decide, by decide⟩,
    is_alive_char (GameOfLife.mk 3 2 [6, 0]) 1 0 (by decide) (by decide) (by decide)⟩

/-- Claim C7: `new(width, height)` with positive dimensions returns a grid of
exactly `ceil(width / 62) * height = (width + 61) / 62 * height` storage
words, all zero, so every in-range `is_alive` is `false`. -/
theorem new_all_dead (w hgt : Nat) (hw : 0 < w) (hh : 0 < hgt) :
    (GameOfLife.new w hgt).grid.length = (w + 61) / 62 * hgt ∧
    (∀ u ∈ (GameOfLife.new w hgt).grid, u = 0) ∧
    (∀ x y : Nat, x < w → y < hgt →
      (GameOfLife.new w hgt).is_alive x y = some false) := by
  refine ⟨?_, ?_, ?_⟩
  · rw [show (GameOfLife.new w hgt).grid =
      List.replicate ((w + 62 - 1) / 62 * hgt) 0 from rfl, List.length_replicate,
      show w + 62 - 1 = w + 61 from by omega]
  · intro u hu
    simp only [GameOfLife.new] at hu
    exact List.eq_of_mem_replicate hu
  · intro x y hx hy
    have hcx : x / 62 < (w + 62 - 1) / 62 := by omega
    have hidx : x / 62 * hgt + y < (w + 62 - 1) / 62 * hgt := index_lt _ _ _ _ hcx hy
    simp only [GameOfLife.is_alive, CLUSTER_LEN]
    rw [show (GameOfLife.new w hgt).grid =
      List.replicate ((w + 62 - 1) / 62 * hgt) 0 from rfl]
    rw [if_pos (by rw [List.length_replicate]; exact hidx)]
    rw [replicate_getD_zero, Nat.zero_shiftRight, Nat.zero_and]
    rfl

/-- Witness for `new_all_dead`: a fresh 70×3 grid. -/
theorem new_all_dead_witness :
    ((0 : Nat) < 70 ∧ (0 : Nat) < 3) ∧
    ((GameOfLife.new 70 3).grid.length = (70 + 61) / 62 * 3 ∧
      (∀ u ∈ (GameOfLife.new 70 3).grid, u = 0) ∧
      (∀ x y : Nat, x < 70 → y < 3 → (GameOfLife.new 70 3).is_alive x y = some false)) :=
  ⟨⟨by decide, by decide⟩, new_all_dead 70 3 (by decide) (by decide)⟩

/-- Counterexample to claim C8 as stated: on a 3×1 grid whose only word has a
padding bit set, `is_alive(4, 0)` is out of bounds (`4 ≥ width = 3`) yet the
computed storage index is in bounds, so the call silently returns the
padding bit — reporting `true` — instead of failing loudly. -/
theorem is_alive_oob_silent_cex :
    (3 : Nat) ≤ 4 ∧ (GameOfLife.mk 3 1 [32]).is_alive 4 0 = some true := by decide

/-- Claim C8, amended: `is_alive` panics exactly when the computed flat index
`(x / 62) * height + y` falls outside the storage; for every other
coordinate pair, in bounds or not, it silently returns the addressed bit
(possibly scratch, padding, or another cell's storage). -/
theorem is_alive_panics_iff (g : GameOfLife) (x y : Nat) :
    (g.is_alive x y = none ↔ g.grid.length ≤ x / 62 * g.height + y) ∧
    (g.grid.length ≤ x / 62 * g.height + y ∨
      g.is_alive x y =
        some ((g.grid.getD (x / 62 * g.height + y) 0).testBit (x % 62 + 1))) := by
  simp only [GameOfLife.is_alive, CLUSTER_LEN]
  by_cases hidx : x / 62 * g.height + y < g.grid.length
  · rw [if_pos hidx, beq_one_testBit]
    exact ⟨⟨fun hcontra => by simp at hcontra, fun hge => by omega⟩, Or.inr rfl⟩
  · rw [if_neg hidx]
    exact ⟨⟨fun _ => by omega, fun _ => rfl⟩, Or.inl (by omega)⟩

/-- Claim C9: for every grid shaped as `new(width, height)` builds it, with
positive width and height and arbitrary cell contents, `tick` is total: the
storage always splits into at least one full column chunk of `height` words,
so neither `chunks_exact_mut` nor the internal `unwrap` can panic. -/
theorem tick_total (g : GameOfLife) (hw : 0 < g.width) (hh : 0 < g.height)
    (hlen : g.grid.length = (g.width + 62 - 1) / 62 * g.height) :
    g.tickChecked = some g.tick := by
  have hge : g.height ≤ g.grid.length := by
    have h1 : 1 * g.height ≤ (g.width + 62 - 1) / 62 * g.height :=
      Nat.mul_le_mul_right _ (by omega)
    have h2 : 1 * g.height = g.height := Nat.one_mul _
    omega
  rw [GameOfLife.tickChecked, if_neg (by omega), if_neg (by omega)]

/-- Witness for `tick_total`: a 70×2 grid with arbitrary contents. -/
theorem tick_total_witness :
    ((0 : Nat) < 70 ∧ (0 : Nat) < 2 ∧
      (GameOfLife.mk 70 2 [5, 6, 7, 8]).grid.length = (70 + 62 - 1) / 62 * 2) ∧
    (GameOfLife.mk 70 2 [5, 6, 7, 8]).tickChecked =
      some (GameOfLife.mk 70 2 [5, 6, 7, 8]).tick :=
  ⟨⟨by decide, by decide, by decide⟩,
    tick_total (GameOfLife.mk 70 2 [5, 6, 7, 8]) (by decide) (by decide) (by decide)⟩

example : (GameOfLife.tick ⟨3, 3, [4, 4, 4]⟩).grid = [0, 14, 0] := by decide

example : (GameOfLife.tick ⟨3, 3, [4, 4, 4]⟩).is_alive 0 1 = some true := by decide

example : naiveNext ⟨3, 3, [4, 4, 4]⟩ 0 1 = true := by decide

example : naiveNext ⟨3, 3, [4, 4, 4]⟩ 1 0 = false := by decide

end GoL
